import Mathlib

/-!
Verification of the habit-tracker backend (src/appraju.py).

Modelling conventions (shallow embedding):
  * A Python `datetime.date` is represented by its ordinal (`date.toordinal()`),
    an `Int`.  Python's `date` arithmetic used in the source is exactly ordinal
    arithmetic: `d - timedelta(days=1)` is `d - 1`, `(d2 - d1).days` is
    `d2 - d1`, and date comparison is ordinal comparison.  A target month is
    given by the ordinal `first` of its first day and its length `len`
    (`calendar.monthrange(year, month)[1]`), so its last day is
    `first + len - 1`.  The `.day` attribute of a date `d` lying in that month
    is `d - first + 1`.
  * A Python `str` is a sequence of code points, modelled as `List Char`
    (`len` is `List.length`, slicing `[:2]` is `List.take 2`, `strip` drops
    whitespace at both ends).  Palette colors are opaque tokens that the code
    never inspects, kept as Lean `String`.
  * The SQLite tables behind SQLAlchemy are lists of rows.  The surrogate
    `Completion.id` primary key is never read anywhere in the source, so
    completion rows are modelled without it.  `db.session.add` appends a row;
    deleting removes the row.  `Habit.id` autoincrement is modelled by the
    `nextHabitId` counter.
  * The dict key `f"{habit.id}-{comp.date}"` is modelled as the pair
    `(habit.id, comp.date)`: the key's suffix after the last dash is the
    fixed-width (10 character) ISO rendering of the date, so
    `key.endswith(str(current_date))` holds exactly when the row's date equals
    `current_date`, and key equality is pair equality.  Python dict insertion
    keeps one entry per key, modelled by `List.dedup`.
  * Floating point percentages are modelled over `ℚ`; Python's `round(x, 1)`
    (round half to even) is `round1` below.
-/

namespace HabitTracker

/-- Python `str` as a sequence of code points. -/
abbrev PyStr := List Char

/-- Python `str.strip()`: drop whitespace from both ends. -/
def pyStrip (s : PyStr) : PyStr :=
  ((s.dropWhile Char.isWhitespace).reverse.dropWhile Char.isWhitespace).reverse

/-- The default emoji, the star symbol (source default `'⭐'`). -/
def star : PyStr := ['⭐']

/-- Row of the `habit` table (model `Habit` in the source). -/
structure Habit where
  id : Nat
  name : PyStr
  emoji : PyStr
  color : String
deriving DecidableEq

/-- Row of the `completion` table (model `Completion` in the source; the
surrogate `id` primary key is never read by the source, so it is omitted). -/
structure Completion where
  habit_id : Nat
  date : Int
  completed : Bool
deriving DecidableEq

/-- The persistent store: the two tables plus the autoincrement counter for
habit ids. -/
structure DB where
  habits : List Habit
  completions : List Completion
  nextHabitId : Nat
deriving DecidableEq

/-- Well-formedness of the store, as enforced by the schema: habit ids are
primary keys (distinct), the unique index `idx_habit_date` makes
`(habit_id, date)` pairs distinct, every persisted completion row has
`completed = True` (rows are only ever created that way), and the
autoincrement counter is fresh. -/
def DB.wf (db : DB) : Prop :=
  (db.habits.map Habit.id).Nodup ∧
  (db.completions.map (fun c => (c.habit_id, c.date))).Nodup ∧
  (∀ c ∈ db.completions, c.completed = true) ∧
  (∀ h ∈ db.habits, h.id < db.nextHabitId)

instance (db : DB) : Decidable db.wf := by
  unfold DB.wf
  exact inferInstance

/-- `.day` of a date `d` in the month whose first day has ordinal `first`. -/
def dayOfMonth (first d : Int) : Int := d - first + 1

/-- Round half to even to the nearest integer (Python `round(x)` semantics). -/
def nearestEven (r : ℚ) : ℤ :=
  let f := ⌊r⌋
  if r - f < 1 / 2 then f
  else if 1 / 2 < r - f then f + 1
  else if f % 2 = 0 then f else f + 1

/-- Python `round(x, 1)`: round half to even at one decimal place. -/
def round1 (q : ℚ) : ℚ := (nearestEven (q * 10) : ℚ) / 10

/-- The while loop of the current-streak calculation of `get_habits`:

    while current_check_date >= first_day and current_check_date in dates:
        streak += 1
        current_check_date -= timedelta(days=1)

written with a fuel argument; `currentStreak` supplies fuel covering every
possible iteration of the loop, so the fuel never runs out. -/
def streakGo (dates : List Int) (first : Int) : Nat → Int → Nat
  | 0, _ => 0
  | fuel + 1, c =>
    if first ≤ c ∧ c ∈ dates then streakGo dates first fuel (c - 1) + 1 else 0

/-- The current-streak calculation of `get_habits` for one habit:
`current_check_date` starts at `min(today, last_day)` and the walk stops
below `first_day`, so `(start + 1 - first).toNat` bounds the iteration
count. -/
def currentStreak (dates : List Int) (first last today : Int) : Nat :=
  let start := min today last
  streakGo dates first (start + 1 - first).toNat start

/-- The `for i in range(1, len(sorted_dates))` loop of the best-streak
calculation, carrying `sorted_dates[i-1]` (`prev`), `best_streak` and
`temp_streak`; the trailing `max` is the source's final
`best_streak = max(best_streak, temp_streak)`. -/
def bestLoop : Int → Nat → Nat → List Int → Nat
  | _, best, temp, [] => max best temp
  | prev, best, temp, d :: rest =>
    if d - prev = 1 then bestLoop d best (temp + 1) rest
    else bestLoop d (max best temp) 1 rest

/-- The best-streak calculation of `get_habits` for one habit:
`month_dates = [d for d in dates if first_day <= d <= last_day]`, then the
scan over `sorted(month_dates)` when nonempty, else 0. -/
def bestStreak (dates : List Int) (first last : Int) : Nat :=
  match List.insertionSort (· ≤ ·)
      (dates.filter (fun d => decide (first ≤ d) && decide (d ≤ last))) with
  | [] => 0
  | d :: rest => bestLoop d 0 1 rest

/-- `Completion.query.filter_by(habit_id=habit.id, completed=True)
.order_by(Completion.date.asc())`, mapped to the list of dates
(`dates = [comp.date for comp in all_comps]`). -/
def habitDates (db : DB) (hid : Nat) : List Int :=
  List.insertionSort (· ≤ ·)
    ((db.completions.filter (fun c => c.habit_id == hid && c.completed == true)).map
      (fun c => c.date))

/-- The month-restricted completion query of `get_habits`:
`Completion.query.filter(habit_id == hid, date >= first_day, date <= last_day,
completed == True)`. -/
def monthComps (db : DB) (hid : Nat) (first last : Int) : List Completion :=
  db.completions.filter (fun c =>
    c.habit_id == hid && decide (first ≤ c.date) && decide (c.date ≤ last) &&
      c.completed == true)

/-- `completions_dict`: for every habit, a key per in-month completion row;
keys `f"{habit.id}-{comp.date}"` modelled as pairs, deduplicated as a dict
is. -/
def completionsDict (db : DB) (first last : Int) : List (Nat × Int) :=
  (db.habits.flatMap (fun h =>
    (monthComps db h.id first last).map (fun c => (h.id, c.date)))).dedup

/-- The `daily_stats` loop of `get_habits`: one entry per day from
`first_day` to `last_day`; `day_completions` counts dict keys whose date
part equals the current date (`k.endswith(str(current_date))` on the
fixed-width ISO suffix); percentage is 0 when there are no habits. -/
def dailyStats (db : DB) (first : Int) (len : Nat) : List (Int × ℚ) :=
  (List.range len).map (fun k : Nat =>
    let d := first + (k : Int)
    let last := first + (len : Int) - 1
    let day_completions :=
      ((completionsDict db first last).filter (fun p => p.2 == d)).length
    let percentage : ℚ :=
      if db.habits.isEmpty then 0
      else (day_completions : ℚ) / (db.habits.length : ℚ) * 100
    (dayOfMonth first d, round1 percentage))

/-- One habit entry of the `GET /api/habits` response. -/
structure ApiHabit where
  id : Nat
  name : PyStr
  emoji : PyStr
  color : String
  current_streak : Nat
  best_streak : Nat
deriving DecidableEq

/-- The `GET /api/habits` response body. -/
structure ApiResponse where
  habits : List ApiHabit
  completions : List (Nat × Int)
  daily_stats : List (Int × ℚ)
deriving DecidableEq

/-- The `GET /api/habits` handler `get_habits`, for target month
`[first, first + len - 1]` (`first` the ordinal of day 1, `len` from
`calendar.monthrange`) and the current date `today`
(`datetime.now().date()`). -/
def get_habits (db : DB) (today first : Int) (len : Nat) : ApiResponse :=
  let last := first + (len : Int) - 1
  { habits := db.habits.map (fun h =>
      { id := h.id, name := h.name, emoji := h.emoji, color := h.color,
        current_streak := currentStreak (habitDates db h.id) first last today,
        best_streak := bestStreak (habitDates db h.id) first last }),
    completions := completionsDict db first last,
    daily_stats := dailyStats db first len }

/-- The fixed palette of `create_habit`. -/
def colors : List String :=
  ["bg-orange-100", "bg-blue-100", "bg-purple-100", "bg-green-100",
   "bg-yellow-100", "bg-red-100", "bg-pink-100", "bg-indigo-100"]

/-- The `POST /api/habits` handler `create_habit`.  `nameArg` is
`str(data['name'])` when the body has a `name` key and `none` otherwise
(`not data or 'name' not in data` fires exactly when the key is absent);
likewise `emojiArg` for `emoji`.  Returns the updated store, the HTTP status,
and the created id on success. -/
def create_habit (db : DB) (nameArg emojiArg : Option PyStr) :
    DB × Nat × Option Nat :=
  match nameArg with
  | none => (db, 400, none)
  | some rawName =>
    let name := pyStrip rawName
    let emoji := (pyStrip (emojiArg.getD star)).take 2
    if name = [] ∨ name.length > 100 then (db, 400, none)
    else
      let habit : Habit :=
        { id := db.nextHabitId, name := name,
          emoji := if emoji = [] then star else emoji,
          color := colors.get
            ⟨db.habits.length % colors.length, Nat.mod_lt _ (by decide)⟩ }
      ({ db with habits := db.habits ++ [habit],
                 nextHabitId := db.nextHabitId + 1 }, 201, some habit.id)

/-- The `DELETE /api/habits/<id>` handler `delete_habit`.  When the id is
unknown, `Habit.query.get_or_404` raises `NotFound`, which subclasses
`Exception`, so the view's own blanket `except Exception` catches it, rolls
back (a no-op) and answers 500 — the 404 never escapes the handler.
Otherwise the habit row is deleted and the `cascade='all, delete-orphan'`
relationship deletes every completion row with that `habit_id`. -/
def delete_habit (db : DB) (habit_id : Nat) : DB × Nat :=
  match db.habits.find? (fun h => h.id == habit_id) with
  | none => (db, 500)
  | some _ =>
    ({ db with habits := db.habits.eraseP (fun h => h.id == habit_id),
               completions := db.completions.filter
                 (fun c => c.habit_id != habit_id) }, 204)

/-- The `POST /api/completions` handler `toggle_completion` after date
parsing.  When the habit does not exist, `get_or_404` raises `NotFound`,
which is not a `ValueError`, so the view's `except Exception` catches it and
answers 500 with the store unchanged.  Otherwise delete the first row
matching `(habit_id, date)` when one exists, else append a fresh row
(created with the `completed=True` default). -/
def toggle_completion (db : DB) (habit_id : Nat) (date : Int) : DB × Nat :=
  match db.habits.find? (fun h => h.id == habit_id) with
  | none => (db, 500)
  | some _ =>
    match db.completions.find? (fun c => c.habit_id == habit_id && c.date == date) with
    | some _ =>
      ({ db with completions := db.completions.eraseP (fun c => c.habit_id == habit_id && c.date == date) }, 200)
    | none =>
      ({ db with completions := db.completions ++ [{ habit_id := habit_id, date := date, completed := true }] }, 200)

/-- Spec-side count for the daily percentage: the number of habits of `H`
completed on day `d` according to completion set `C`
(`|{h ∈ H : (h, d) ∈ C}|`). -/
def specDayCount (db : DB) (d : Int) : Nat :=
  (db.habits.filter (fun h =>
    db.completions.any (fun c =>
      c.habit_id == h.id && c.date == d && c.completed == true))).length

/-- A run of `k` consecutive calendar days starting at `d`, all of which are
members of `L` (the spec's "run of consecutive calendar days (day-to-day gap
of exactly 1) among completed dates"). -/
def runIn (L : List Int) (d : Int) (k : Nat) : Prop :=
  ∀ x : Int, d ≤ x → x < d + (k : Int) → x ∈ L

/-! ### Concrete stores used to witness the theorems -/

/-- A store with one habit completed on days 3, 4, 5 and 10 of the month
starting at ordinal 101 (the spec's best-streak example). -/
def wdbA : DB :=
  { habits := [{ id := 1, name := ['G', 'y', 'm'], emoji := star,
                 color := "bg-blue-100" }],
    completions := [⟨1, 103, true⟩, ⟨1, 104, true⟩, ⟨1, 105, true⟩,
                    ⟨1, 110, true⟩],
    nextHabitId := 2 }

/-- A store with one habit completed only on ordinal 129, the last day of
the month starting at ordinal 100. -/
def wdbB : DB :=
  { habits := [{ id := 1, name := ['G', 'y', 'm'], emoji := star,
                 color := "bg-blue-100" }],
    completions := [⟨1, 129, true⟩],
    nextHabitId := 2 }

/-- `wdbA` plus one completion on ordinal 100, the day before the month
starting at ordinal 101. -/
def wdbC : DB :=
  { habits := wdbA.habits,
    completions := wdbA.completions ++ [⟨1, 100, true⟩],
    nextHabitId := 2 }

/-- The response entry for the habit of `wdbA` when today is day 5. -/
def wEntryA3 : ApiHabit :=
  { id := 1, name := ['G', 'y', 'm'], emoji := star, color := "bg-blue-100",
    current_streak := 3, best_streak := 3 }

/-- The response entry for the habit of `wdbB` when today is past the
month. -/
def wEntryB1 : ApiHabit :=
  { id := 1, name := ['G', 'y', 'm'], emoji := star, color := "bg-blue-100",
    current_streak := 1, best_streak := 1 }

/-- The response entry for the habit of `wdbB` when today is before the
month. -/
def wEntryB0 : ApiHabit :=
  { id := 1, name := ['G', 'y', 'm'], emoji := star, color := "bg-blue-100",
    current_streak := 0, best_streak := 1 }

/-! ### Properties of the backward walk (current streak) -/

theorem streakGo_spec (dates : List Int) (first : Int) (fuel : Nat) (c : Int)
    (hfuel : (c + 1 - first).toNat ≤ fuel) :
    (∀ x : Int, c - (streakGo dates first fuel c : Int) < x → x ≤ c →
        first ≤ x ∧ x ∈ dates) ∧
    ¬(first ≤ c - (streakGo dates first fuel c : Int) ∧
        c - (streakGo dates first fuel c : Int) ∈ dates) := by
  induction fuel generalizing c with
  | zero =>
    have hc : c < first := by omega
    refine ⟨fun x hx1 hx2 => ?_, fun hcon => ?_⟩
    · simp only [streakGo, Nat.cast_zero] at hx1
      omega
    · simp only [streakGo, Nat.cast_zero] at hcon
      omega
  | succ fuel ih =>
    by_cases h : first ≤ c ∧ c ∈ dates
    · have ihc := ih (c - 1) (by omega)
      simp only [streakGo, if_pos h]
      set s := streakGo dates first fuel (c - 1) with hs
      have hcast : ((s + 1 : Nat) : Int) = (s : Int) + 1 := by push_cast; ring
      have hshift : c - ((s + 1 : Nat) : Int) = (c - 1) - (s : Int) := by omega
      refine ⟨fun x hx1 hx2 => ?_, ?_⟩
      · rcases eq_or_lt_of_le hx2 with rfl | hlt
        · exact h
        · exact ihc.1 x (by omega) (by omega)
      · rw [hshift]
        exact ihc.2
    · simp only [streakGo, if_neg h]
      refine ⟨fun x hx1 hx2 => ?_, ?_⟩
      · simp only [Nat.cast_zero] at hx1
        omega
      · simpa using h

theorem streakGo_congr (d1 d2 : List Int) (first : Int) (fuel : Nat) (c : Int)
    (h : ∀ x : Int, first ≤ x → x ≤ c → (x ∈ d1 ↔ x ∈ d2)) :
    streakGo d1 first fuel c = streakGo d2 first fuel c := by
  induction fuel generalizing c with
  | zero => rfl
  | succ fuel ih =>
    have hcc : (first ≤ c ∧ c ∈ d1) ↔ (first ≤ c ∧ c ∈ d2) :=
      ⟨fun hp => ⟨hp.1, (h c hp.1 le_rfl).mp hp.2⟩,
       fun hp => ⟨hp.1, (h c hp.1 le_rfl).mpr hp.2⟩⟩
    by_cases h1 : first ≤ c ∧ c ∈ d1
    · simp only [streakGo, if_pos h1, if_pos (hcc.mp h1)]
      rw [ih (c - 1) (fun x hx1 hx2 => h x hx1 (by omega))]
    · simp only [streakGo, if_neg h1, if_neg (fun hp => h1 (hcc.mpr hp))]

/-- The walked days of `currentStreak` form a contiguous block of completed
in-range days ending at `min today last`, and the walk stops at the first
failing day. -/
theorem currentStreak_spec (dates : List Int) (first last today : Int) :
    (∀ x : Int,
        min today last - (currentStreak dates first last today : Int) < x →
        x ≤ min today last → first ≤ x ∧ x ∈ dates) ∧
    ¬(first ≤ min today last - (currentStreak dates first last today : Int) ∧
        min today last - (currentStreak dates first last today : Int) ∈ dates) := by
  unfold currentStreak
  exact streakGo_spec dates first _ (min today last) le_rfl

theorem currentStreak_congr (d1 d2 : List Int) (first last today : Int)
    (h : ∀ x : Int, first ≤ x → x ≤ last → (x ∈ d1 ↔ x ∈ d2)) :
    currentStreak d1 first last today = currentStreak d2 first last today := by
  unfold currentStreak
  exact streakGo_congr d1 d2 first _ (min today last)
    (fun x hx1 hx2 => h x hx1 (le_trans hx2 (min_le_right _ _)))

theorem currentStreak_of_start_below (dates : List Int) (first last today : Int)
    (h : min today last < first) : currentStreak dates first last today = 0 := by
  show streakGo dates first (min today last + 1 - first).toNat (min today last) = 0
  have h0 : (min today last + 1 - first).toNat = 0 := by omega
  rw [h0]
  rfl

/-! ### Properties of the best-streak scan -/

theorem bestLoop_attains (L : List Int) (rest : List Int) :
    ∀ (prev : Int) (best temp : Nat),
      (∀ x ∈ rest, x ∈ L) →
      (∀ x : Int, prev - (temp : Int) < x → x ≤ prev → x ∈ L) →
      (∃ d : Int, runIn L d best) →
      ∃ d : Int, runIn L d (bestLoop prev best temp rest) := by
  induction rest with
  | nil =>
    intro prev best temp _ hrun hbest
    simp only [bestLoop]
    rcases Nat.le_total temp best with hle | hle
    · rw [Nat.max_eq_left hle]
      exact hbest
    · rw [Nat.max_eq_right hle]
      exact ⟨prev - (temp : Int) + 1, fun x hx1 hx2 => hrun x (by omega) (by omega)⟩
  | cons d2 rest ih =>
    intro prev best temp hsub hrun hbest
    have hd2L : d2 ∈ L := hsub d2 (List.mem_cons_self _ _)
    have hsub2 : ∀ x ∈ rest, x ∈ L := fun x hx => hsub x (List.mem_cons_of_mem _ hx)
    simp only [bestLoop]
    by_cases hc : d2 - prev = 1
    · rw [if_pos hc]
      refine ih d2 best (temp + 1) hsub2 (fun x hx1 hx2 => ?_) hbest
      rcases eq_or_lt_of_le hx2 with rfl | hlt
      · exact hd2L
      · exact hrun x (by push_cast at hx1 ⊢; omega) (by omega)
    · rw [if_neg hc]
      refine ih d2 (max best temp) 1 hsub2 (fun x hx1 hx2 => ?_) ?_
      · have : x = d2 := by push_cast at hx1; omega
        subst this
        exact hd2L
      · rcases Nat.le_total temp best with hle | hle
        · rw [Nat.max_eq_left hle]
          exact hbest
        · rw [Nat.max_eq_right hle]
          exact ⟨prev - (temp : Int) + 1, fun x hx1 hx2 => hrun x (by omega) (by omega)⟩

theorem bestLoop_bound (L : List Int) (rest : List Int) :
    ∀ (prev : Int) (best temp : Nat),
      List.Pairwise (· < ·) (prev :: rest) →
      (∀ x : Int, x ∈ L → x ≤ prev ∨ x ∈ rest) →
      (∀ (d : Int) (k : Nat), 1 ≤ k → runIn L d k → d + (k : Int) - 1 = prev →
        k ≤ temp) →
      (∀ (d : Int) (k : Nat), 1 ≤ k → runIn L d k → d + (k : Int) - 1 < prev →
        k ≤ max best temp) →
      ∀ (d : Int) (k : Nat), runIn L d k → k ≤ bestLoop prev best temp rest := by
  induction rest with
  | nil =>
    intro prev best temp _ hbelow I1 I2 d k hrun
    simp only [bestLoop]
    rcases Nat.eq_zero_or_pos k with rfl | hk
    · exact Nat.zero_le _
    · have hlast : d + (k : Int) - 1 ∈ L := hrun _ (by omega) (by omega)
      rcases hbelow _ hlast with hle | hmem
      · rcases eq_or_lt_of_le hle with heq | hlt
        · exact le_trans (I1 d k hk hrun heq) (le_max_right _ _)
        · exact I2 d k hk hrun hlt
      · exact absurd hmem (List.not_mem_nil _)
  | cons d2 rest ih =>
    intro prev best temp hpair hbelow I1 I2 d k hrun
    obtain ⟨hprevlt, hpair2⟩ := List.pairwise_cons.mp hpair
    have hpd2 : prev < d2 := hprevlt d2 (List.mem_cons_self _ _)
    have hd2rest : ∀ y ∈ rest, d2 < y := (List.pairwise_cons.mp hpair2).1
    have hgap : ∀ x : Int, x ∈ L → prev < x → x < d2 → False := by
      intro x hx h1 h2
      rcases hbelow x hx with h3 | h3
      · omega
      · rcases List.mem_cons.mp h3 with rfl | h4
        · omega
        · have := hd2rest x h4
          omega
    have hbelow2 : ∀ x : Int, x ∈ L → x ≤ d2 ∨ x ∈ rest := by
      intro x hx
      rcases hbelow x hx with h3 | h3
      · exact Or.inl (by omega)
      · rcases List.mem_cons.mp h3 with rfl | h4
        · exact Or.inl le_rfl
        · exact Or.inr h4
    simp only [bestLoop]
    by_cases hc : d2 - prev = 1
    · rw [if_pos hc]
      refine ih d2 best (temp + 1) hpair2 hbelow2 ?_ ?_ d k hrun
      · intro d0 k0 hk0 hrun0 hend
        rcases Nat.lt_or_ge k0 2 with h2 | h2
        · omega
        · have hrun1 : runIn L d0 (k0 - 1) := fun x hx1 hx2 =>
            hrun0 x hx1 (by omega)
          have := I1 d0 (k0 - 1) (by omega) hrun1 (by omega)
          omega
      · intro d0 k0 hk0 hrun0 hend
        have hle : d0 + (k0 : Int) - 1 ≤ prev := by omega
        rcases eq_or_lt_of_le hle with heq | hlt
        · have := I1 d0 k0 hk0 hrun0 heq
          have : k0 ≤ temp + 1 := by omega
          exact le_trans this (le_max_right _ _)
        · have := I2 d0 k0 hk0 hrun0 hlt
          have hmm : max best temp ≤ max best (temp + 1) :=
            max_le_max le_rfl (by omega)
          omega
    · rw [if_neg hc]
      refine ih d2 (max best temp) 1 hpair2 hbelow2 ?_ ?_ d k hrun
      · intro d0 k0 hk0 hrun0 hend
        rcases Nat.lt_or_ge k0 2 with h2 | h2
        · omega
        · exfalso
          have hin : d2 - 1 ∈ L := by
            have := hrun0 (d2 - 1) (by omega) (by omega)
            exact this
          exact hgap (d2 - 1) hin (by omega) (by omega)
      · intro d0 k0 hk0 hrun0 hend
        have hendL : d0 + (k0 : Int) - 1 ∈ L := hrun0 _ (by omega) (by omega)
        have hle : d0 + (k0 : Int) - 1 ≤ prev := by
          by_contra hcon
          push_neg at hcon
          exact hgap _ hendL hcon hend
        rcases eq_or_lt_of_le hle with heq | hlt
        · have := I1 d0 k0 hk0 hrun0 heq
          exact le_trans (le_trans this (le_max_right best temp)) (le_max_left _ _)
        · have := I2 d0 k0 hk0 hrun0 hlt
          exact le_trans this (le_max_left _ _)

theorem mem_monthFilter {dates : List Int} {first last x : Int} :
    x ∈ dates.filter (fun d => decide (first ≤ d) && decide (d ≤ last)) ↔
      first ≤ x ∧ x ≤ last ∧ x ∈ dates := by
  simp only [List.mem_filter, Bool.and_eq_true, decide_eq_true_eq]
  tauto

/-- The best streak is attained: some block of `bestStreak` consecutive days
consists of in-month completed days. -/
theorem bestStreak_attains (dates : List Int) (first last : Int) :
    ∃ d : Int, ∀ x : Int, d ≤ x → x < d + (bestStreak dates first last : Int) →
      first ≤ x ∧ x ≤ last ∧ x ∈ dates := by
  unfold bestStreak
  split
  · exact ⟨0, fun x hx1 hx2 => by simp only [Nat.cast_zero] at hx2; omega⟩
  · rename_i hd tl heq
    have hmem : ∀ x : Int, x ∈ hd :: tl ↔ (first ≤ x ∧ x ≤ last ∧ x ∈ dates) := by
      intro x
      rw [← heq, List.mem_insertionSort]
      exact mem_monthFilter
    obtain ⟨d, hrun⟩ := bestLoop_attains (hd :: tl) tl hd 0 1
      (fun x hx => List.mem_cons_of_mem _ hx)
      (fun x hx1 hx2 => by
        have hx : x = hd := by simp only [Nat.cast_one] at hx1; omega
        subst hx
        exact List.mem_cons_self _ _)
      ⟨0, fun x hx1 hx2 => by simp only [Nat.cast_zero] at hx2; omega⟩
    exact ⟨d, fun x hx1 hx2 => (hmem x).mp (hrun x hx1 hx2)⟩

/-- The best streak bounds every run of consecutive in-month completed
days. -/
theorem bestStreak_bound (dates : List Int) (first last : Int)
    (hnd : dates.Nodup) (d : Int) (k : Nat)
    (hk : ∀ x : Int, d ≤ x → x < d + (k : Int) → first ≤ x ∧ x ≤ last ∧ x ∈ dates) :
    k ≤ bestStreak dates first last := by
  unfold bestStreak
  split
  · rename_i heq
    rcases Nat.eq_zero_or_pos k with rfl | hpos
    · exact le_rfl
    · exfalso
      have hdm := hk d le_rfl (by omega)
      have hmm : d ∈ List.insertionSort (· ≤ ·)
          (dates.filter (fun x => decide (first ≤ x) && decide (x ≤ last))) := by
        rw [List.mem_insertionSort]
        exact mem_monthFilter.mpr hdm
      rw [heq] at hmm
      exact absurd hmm (List.not_mem_nil _)
  · rename_i hd tl heq
    have hperm := List.perm_insertionSort (· ≤ ·)
      (dates.filter (fun x => decide (first ≤ x) && decide (x ≤ last)))
    rw [heq] at hperm
    have hsorted : List.Sorted (· ≤ ·) (hd :: tl) := by
      rw [← heq]
      exact List.sorted_insertionSort (· ≤ ·) _
    have hndL : (hd :: tl).Nodup := hperm.symm.nodup (hnd.filter _)
    have hpair : List.Pairwise (· < ·) (hd :: tl) :=
      (hsorted.and hndL).imp (fun h => lt_of_le_of_ne h.1 h.2)
    have hmem : ∀ x : Int, x ∈ hd :: tl ↔ (first ≤ x ∧ x ≤ last ∧ x ∈ dates) := by
      intro x
      rw [← heq, List.mem_insertionSort]
      exact mem_monthFilter
    have hge : ∀ x ∈ tl, hd ≤ x := (List.sorted_cons.mp hsorted).1
    refine bestLoop_bound (hd :: tl) tl hd 0 1 hpair ?_ ?_ ?_ d k ?_
    · intro x hx
      rcases List.mem_cons.mp hx with rfl | h
      · exact Or.inl le_rfl
      · exact Or.inr h
    · intro d0 k0 hk0 hrun0 hend
      rcases Nat.lt_or_ge k0 2 with h2 | h2
      · omega
      · exfalso
        have h1 : hd - 1 ∈ hd :: tl := hrun0 (hd - 1) (by omega) (by omega)
        rcases List.mem_cons.mp h1 with heq1 | h4
        · omega
        · have := hge _ h4
          omega
    · intro d0 k0 hk0 hrun0 hend
      exfalso
      have h1 : d0 + (k0 : Int) - 1 ∈ hd :: tl := hrun0 _ (by omega) (by omega)
      rcases List.mem_cons.mp h1 with heq1 | h4
      · omega
      · have := hge _ h4
        omega
    · intro x hx1 hx2
      exact (hmem x).mpr (hk x hx1 hx2)

theorem le_bestLoop (rest : List Int) :
    ∀ (prev : Int) (best temp : Nat), max best temp ≤ bestLoop prev best temp rest := by
  induction rest with
  | nil => intro prev best temp; simp [bestLoop]
  | cons d2 rest ih =>
    intro prev best temp
    simp only [bestLoop]
    by_cases hc : d2 - prev = 1
    · rw [if_pos hc]
      exact le_trans (max_le_max le_rfl (Nat.le_succ temp)) (ih d2 best (temp + 1))
    · rw [if_neg hc]
      exact le_trans (le_max_left _ 1) (ih d2 (max best temp) 1)

/-- The best streak is 0 exactly when the habit has no completed date inside
the month. -/
theorem bestStreak_eq_zero_iff (dates : List Int) (first last : Int) :
    bestStreak dates first last = 0 ↔
      ∀ x : Int, ¬(first ≤ x ∧ x ≤ last ∧ x ∈ dates) := by
  unfold bestStreak
  split
  · rename_i heq
    constructor
    · intro _ x hx
      have hmm : x ∈ List.insertionSort (· ≤ ·)
          (dates.filter (fun y => decide (first ≤ y) && decide (y ≤ last))) := by
        rw [List.mem_insertionSort]
        exact mem_monthFilter.mpr hx
      rw [heq] at hmm
      exact absurd hmm (List.not_mem_nil _)
    · intro _
      rfl
  · rename_i hd tl heq
    have h1 : 1 ≤ bestLoop hd 0 1 tl := le_trans (by omega) (le_bestLoop tl hd 0 1)
    constructor
    · intro h0
      omega
    · intro hall
      exfalso
      have hmm : hd ∈ List.insertionSort (· ≤ ·)
          (dates.filter (fun y => decide (first ≤ y) && decide (y ≤ last))) := by
        rw [heq]
        exact List.mem_cons_self _ _
      rw [List.mem_insertionSort] at hmm
      exact hall hd (mem_monthFilter.mp hmm)

/-! ### The per-habit completed-dates list -/

theorem mem_habitDates {db : DB} {hid : Nat} {x : Int} :
    x ∈ habitDates db hid ↔
      ∃ c ∈ db.completions, c.habit_id = hid ∧ c.date = x ∧ c.completed = true := by
  unfold habitDates
  rw [List.mem_insertionSort]
  simp only [List.mem_map, List.mem_filter, Bool.and_eq_true, beq_iff_eq]
  constructor
  · rintro ⟨c, ⟨hc, h1, h2⟩, rfl⟩
    exact ⟨c, hc, h1, rfl, h2⟩
  · rintro ⟨c, hc, h1, rfl, h2⟩
    exact ⟨c, ⟨hc, h1, h2⟩, rfl⟩

theorem habitDates_nodup {db : DB} (hwf : db.wf) (hid : Nat) :
    (habitDates db hid).Nodup := by
  unfold habitDates
  apply (List.perm_insertionSort (· ≤ ·) _).symm.nodup
  have hrows : db.completions.Nodup := hwf.2.1.of_map
  apply List.Nodup.map_on ?_ (hrows.filter _)
  intro x hx y hy hxy
  have hxm := List.mem_filter.mp hx
  have hym := List.mem_filter.mp hy
  have hxp := (Bool.and_eq_true _ _).mp hxm.2
  have hyp := (Bool.and_eq_true _ _).mp hym.2
  have hinj := List.inj_on_of_nodup_map hwf.2.1
  apply hinj hxm.1 hym.1
  simp only [Prod.mk.injEq]
  exact ⟨by rw [beq_iff_eq.mp hxp.1, beq_iff_eq.mp hyp.1], hxy⟩

/-- The streak fields of a habit entry of the response are computed by
`currentStreak` and `bestStreak` over that habit's completed dates. -/
theorem mem_get_habits {db : DB} {today first : Int} {len : Nat} {e : ApiHabit}
    (he : e ∈ (get_habits db today first len).habits) :
    e.current_streak =
        currentStreak (habitDates db e.id) first (first + (len : Int) - 1) today ∧
      e.best_streak = bestStreak (habitDates db e.id) first (first + (len : Int) - 1) := by
  simp only [get_habits, List.mem_map] at he
  obtain ⟨h, _, rfl⟩ := he
  exact ⟨rfl, rfl⟩

theorem bestStreak_congr (d1 d2 : List Int) (first last : Int)
    (hnd1 : d1.Nodup) (hnd2 : d2.Nodup)
    (h : ∀ x : Int, first ≤ x → x ≤ last → (x ∈ d1 ↔ x ∈ d2)) :
    bestStreak d1 first last = bestStreak d2 first last := by
  unfold bestStreak
  have hsorteq : List.insertionSort (· ≤ ·)
        (d1.filter (fun d => decide (first ≤ d) && decide (d ≤ last))) =
      List.insertionSort (· ≤ ·)
        (d2.filter (fun d => decide (first ≤ d) && decide (d ≤ last))) := by
    apply List.eq_of_perm_of_sorted ?_ (List.sorted_insertionSort _ _)
      (List.sorted_insertionSort _ _)
    refine ((List.perm_insertionSort _ _).trans ?_).trans
      (List.perm_insertionSort _ _).symm
    rw [List.perm_ext_iff_of_nodup (hnd1.filter _) (hnd2.filter _)]
    intro x
    rw [mem_monthFilter, mem_monthFilter]
    constructor
    · rintro ⟨h1, h2, h3⟩
      exact ⟨h1, h2, (h x h1 h2).mp h3⟩
    · rintro ⟨h1, h2, h3⟩
      exact ⟨h1, h2, (h x h1 h2).mpr h3⟩
  rw [hsorteq]

/-! ### Counting lemmas for the daily percentage -/

theorem countP_le_one_of_key {l : List Completion}
    (hnd : (l.map (fun c => (c.habit_id, c.date))).Nodup)
    (p : Completion → Bool) (hid : Nat) (d : Int)
    (hp : ∀ c, p c = true → c.habit_id = hid ∧ c.date = d) :
    l.countP p ≤ 1 := by
  induction l with
  | nil => simp [List.countP_nil]
  | cons c l ih =>
    simp only [List.map_cons, List.nodup_cons] at hnd
    rw [List.countP_cons]
    by_cases hc : p c = true
    · have h0 : l.countP p = 0 := by
        rw [List.countP_eq_zero]
        intro a ha hpa
        apply hnd.1
        refine List.mem_map.mpr ⟨a, ha, ?_⟩
        obtain ⟨ha1, ha2⟩ := hp a hpa
        obtain ⟨hc1, hc2⟩ := hp c hc
        rw [ha1, ha2, hc1, hc2]
      simp [hc, h0]
    · simpa [hc] using ih hnd.2

theorem monthComps_count (db : DB)
    (hnd : (db.completions.map (fun c => (c.habit_id, c.date))).Nodup)
    (hid : Nat) (first last d : Int) (hd1 : first ≤ d) (hd2 : d ≤ last) :
    (((monthComps db hid first last).map (fun c => (hid, c.date))).filter
        (fun p => p.2 == d)).length =
      if db.completions.any (fun c =>
          c.habit_id == hid && c.date == d && c.completed == true)
        then 1 else 0 := by
  rw [List.filter_map, List.length_map, ← List.countP_eq_length_filter]
  unfold monthComps
  rw [List.countP_filter]
  have hpred : ∀ c : Completion,
      (((fun p : Nat × Int => p.2 == d) ∘ fun c => (hid, c.date)) c &&
        (c.habit_id == hid && decide (first ≤ c.date) && decide (c.date ≤ last) &&
          c.completed == true)) =
      (c.habit_id == hid && c.date == d && c.completed == true) := by
    intro c
    rw [Bool.eq_iff_iff]
    simp only [Function.comp_apply, Bool.and_eq_true, beq_iff_eq,
      decide_eq_true_eq, and_assoc]
    constructor
    · rintro ⟨h2, h1, _, _, h3⟩
      exact ⟨h1, h2, h3⟩
    · rintro ⟨h1, h2, h3⟩
      exact ⟨h2, h1, by omega, by omega, h3⟩
  rw [List.countP_congr (fun c _ => by rw [hpred c])]
  set q := fun c : Completion =>
    c.habit_id == hid && c.date == d && c.completed == true with hq
  have hle : db.completions.countP q ≤ 1 := by
    apply countP_le_one_of_key hnd q hid d
    intro c hc
    rw [hq] at hc
    simp only [Bool.and_eq_true, beq_iff_eq] at hc
    exact ⟨hc.1.1, hc.1.2⟩
  by_cases hany : db.completions.any q = true
  · rw [if_pos hany]
    obtain ⟨a, ha, hqa⟩ := List.any_eq_true.mp hany
    have : 0 < db.completions.countP q := List.countP_pos_iff.mpr ⟨a, ha, hqa⟩
    omega
  · rw [if_neg hany]
    rw [List.countP_eq_zero]
    intro a ha hqa
    exact hany (List.any_eq_true.mpr ⟨a, ha, hqa⟩)

theorem completions_flatMap_nodup (db : DB) (hwf : db.wf) (first last : Int) :
    (db.habits.flatMap (fun h =>
      (monthComps db h.id first last).map (fun c => (h.id, c.date)))).Nodup := by
  rw [List.nodup_flatMap]
  constructor
  · intro h _
    have hrows : db.completions.Nodup := hwf.2.1.of_map
    apply List.Nodup.map_on ?_ ((hrows.filter _))
    intro x hx y hy hxy
    have hxm := List.mem_filter.mp hx
    have hym := List.mem_filter.mp hy
    have hinj := List.inj_on_of_nodup_map hwf.2.1
    apply hinj hxm.1 hym.1
    have hxp := hxm.2
    have hyp := hym.2
    simp only [Bool.and_eq_true, beq_iff_eq] at hxp hyp
    simp only [Prod.mk.injEq] at hxy
    simp only [Prod.mk.injEq]
    exact ⟨by rw [hxp.1.1.1, hyp.1.1.1], hxy.2⟩
  · have hid : List.Pairwise (fun a b : Habit => a.id ≠ b.id) db.habits :=
      List.pairwise_map.mp hwf.1
    apply hid.imp
    intro a b hab
    intro p hpa hpb
    obtain ⟨_, _, rfl⟩ := List.mem_map.mp hpa
    obtain ⟨_, _, h2⟩ := List.mem_map.mp hpb
    exact hab (congrArg Prod.fst h2.symm)

theorem dict_count_eq_spec (db : DB) (hwf : db.wf) (first last d : Int)
    (hd1 : first ≤ d) (hd2 : d ≤ last) :
    ((completionsDict db first last).filter (fun p => p.2 == d)).length =
      specDayCount db d := by
  unfold completionsDict specDayCount
  rw [List.dedup_eq_self.mpr (completions_flatMap_nodup db hwf first last)]
  induction db.habits with
  | nil => rfl
  | cons h hs ih =>
    rw [List.flatMap_cons, List.filter_append, List.length_append, ih,
      List.filter_cons]
    rw [monthComps_count db hwf.2.1 h.id first last d hd1 hd2]
    by_cases hany : db.completions.any (fun c =>
        c.habit_id == h.id && c.date == d && c.completed == true) = true
    · rw [if_pos hany, if_pos hany]
      simp [Nat.add_comm]
    · rw [if_neg hany, if_neg hany]
      simp

theorem round1_zero : round1 0 = 0 := by
  unfold round1 nearestEven
  norm_num

/-! ### Claim theorems -/

/-- Claim C1: for every habit, the current streak returned by the
month-summary fetch equals the number of consecutive completed days counted
by walking backward from `min(today, last day of the target month)`,
stopping at the first day (but not before the first day of the month) with
no completion: every day strictly between `start - streak` and `start` is an
in-range completed day, the day `start - streak` is not (either out of range
or not completed), and in particular the streak is 0 whenever the start day
itself is not completed. -/
theorem C1_current_streak_backward_walk (db : DB) (today first : Int)
    (len : Nat) (e : ApiHabit)
    (he : e ∈ (get_habits db today first len).habits) :
    (∀ x : Int,
        min today (first + (len : Int) - 1) - (e.current_streak : Int) < x →
        x ≤ min today (first + (len : Int) - 1) →
        first ≤ x ∧ x ∈ habitDates db e.id) ∧
    ¬(first ≤ min today (first + (len : Int) - 1) - (e.current_streak : Int) ∧
        min today (first + (len : Int) - 1) - (e.current_streak : Int) ∈
          habitDates db e.id) ∧
    (min today (first + (len : Int) - 1) ∉ habitDates db e.id →
      e.current_streak = 0) := by
  obtain ⟨hc, _⟩ := mem_get_habits he
  rw [hc]
  obtain ⟨h1, h2⟩ :=
    currentStreak_spec (habitDates db e.id) first (first + (len : Int) - 1) today
  refine ⟨h1, h2, ?_⟩
  intro hnot
  by_contra hne
  have hpos : 0 < currentStreak (habitDates db e.id) first
      (first + (len : Int) - 1) today := Nat.pos_of_ne_zero hne
  have := h1 (min today (first + (len : Int) - 1)) (by omega) le_rfl
  exact hnot this.2

/-- Claim C2: for every habit, the best streak returned by the month-summary
fetch is the length of the longest run of consecutive calendar days among
that habit's completed dates within the target month only: some block of
`best_streak` consecutive days consists of in-month completed days, every
such block is at most `best_streak` long, and the best streak is 0 exactly
when the habit has no completed date inside the month. -/
theorem C2_best_streak_longest_run (db : DB) (today first : Int) (len : Nat)
    (hwf : db.wf) (e : ApiHabit)
    (he : e ∈ (get_habits db today first len).habits) :
    (∃ d : Int, ∀ x : Int, d ≤ x → x < d + (e.best_streak : Int) →
        first ≤ x ∧ x ≤ first + (len : Int) - 1 ∧ x ∈ habitDates db e.id) ∧
    (∀ (d : Int) (k : Nat),
        (∀ x : Int, d ≤ x → x < d + (k : Int) →
          first ≤ x ∧ x ≤ first + (len : Int) - 1 ∧ x ∈ habitDates db e.id) →
        k ≤ e.best_streak) ∧
    (e.best_streak = 0 ↔
      ∀ x : Int,
        ¬(first ≤ x ∧ x ≤ first + (len : Int) - 1 ∧ x ∈ habitDates db e.id)) := by
  obtain ⟨_, hb⟩ := mem_get_habits he
  rw [hb]
  refine ⟨bestStreak_attains _ _ _, ?_, bestStreak_eq_zero_iff _ _ _⟩
  intro d k hk
  exact bestStreak_bound _ _ _ (habitDates_nodup hwf _) d k hk

/-- Claim C9: for every habit, the current streak returned by the
month-summary fetch is at most the best streak returned for the same habit
and month. -/
theorem C9_current_le_best (db : DB) (today first : Int) (len : Nat)
    (hwf : db.wf) (e : ApiHabit)
    (he : e ∈ (get_habits db today first len).habits) :
    e.current_streak ≤ e.best_streak := by
  obtain ⟨hc, hb⟩ := mem_get_habits he
  rw [hc, hb]
  rcases Nat.eq_zero_or_pos
    (currentStreak (habitDates db e.id) first (first + (len : Int) - 1) today)
    with h0 | hpos
  · rw [h0]
    exact Nat.zero_le _
  · have hspec := (currentStreak_spec (habitDates db e.id) first
      (first + (len : Int) - 1) today).1
    have hmin := min_le_right today (first + (len : Int) - 1)
    apply bestStreak_bound _ _ _ (habitDates_nodup hwf _)
      (min today (first + (len : Int) - 1) -
        (currentStreak (habitDates db e.id) first (first + (len : Int) - 1) today
          : Int) + 1)
    intro x hx1 hx2
    have hx3 := hspec x (by omega) (by omega)
    exact ⟨hx3.1, by omega, hx3.2⟩

/-- Claim C4 (amended): when today is after the target month's last day the
backward walk starts from the month's last day, so the current streak equals
the walk count started there; when today is before the month's first day the
walk starts at today itself, which is already below the month's first day,
so the current streak is 0. -/
theorem C4_today_outside_month (db : DB) (today first : Int) (len : Nat)
    (e : ApiHabit) (he : e ∈ (get_habits db today first len).habits) :
    (first + (len : Int) - 1 < today →
      e.current_streak =
        currentStreak (habitDates db e.id) first (first + (len : Int) - 1)
          (first + (len : Int) - 1)) ∧
    (today < first → e.current_streak = 0) := by
  obtain ⟨hc, _⟩ := mem_get_habits he
  constructor
  · intro h
    rw [hc]
    simp only [currentStreak]
    rw [min_eq_right (le_of_lt h), min_self]
  · intro h
    rw [hc]
    apply currentStreak_of_start_below
    have := min_le_left today (first + (len : Int) - 1)
    omega

/-- Claim C5: the streak computations never read completions outside the
target month: if two stores hold the same habit list and their completion
sets agree on every (habit, day) fact inside the month, the month-summary
fetch reports identical current and best streaks for every habit. -/
theorem C5_streaks_month_local (db1 db2 : DB) (today first : Int) (len : Nat)
    (hwf1 : db1.wf) (hwf2 : db2.wf) (hhab : db1.habits = db2.habits)
    (hagree : ∀ h ∈ db1.habits, ∀ k ∈ List.range len,
      ((first + (k : Int)) ∈ habitDates db1 h.id ↔
        (first + (k : Int)) ∈ habitDates db2 h.id)) :
    (get_habits db1 today first len).habits.map
        (fun e => (e.id, e.current_streak, e.best_streak)) =
      (get_habits db2 today first len).habits.map
        (fun e => (e.id, e.current_streak, e.best_streak)) := by
  have hmemiff : ∀ h ∈ db1.habits, ∀ x : Int,
      first ≤ x → x ≤ first + (len : Int) - 1 →
      (x ∈ habitDates db1 h.id ↔ x ∈ habitDates db2 h.id) := by
    intro h hh x h1 h2
    have hk : (x - first).toNat ∈ List.range len := by
      rw [List.mem_range]
      omega
    have hx : first + (((x - first).toNat : Nat) : Int) = x := by omega
    have := hagree h hh _ hk
    rwa [hx] at this
  simp only [get_habits]
  rw [List.map_map, List.map_map, hhab]
  apply List.map_congr_left
  intro h hh
  have hh1 : h ∈ db1.habits := by
    rw [hhab]
    exact hh
  have hcs := currentStreak_congr (habitDates db1 h.id) (habitDates db2 h.id)
    first (first + (len : Int) - 1) today (hmemiff h hh1)
  have hbs := bestStreak_congr (habitDates db1 h.id) (habitDates db2 h.id)
    first (first + (len : Int) - 1) (habitDates_nodup hwf1 _)
    (habitDates_nodup hwf2 _) (hmemiff h hh1)
  show (h.id, currentStreak _ _ _ _, bestStreak _ _ _) = (h.id, _, _)
  rw [hcs, hbs]

/-- Claim C3: for every day of the target month, the daily percentage
reported by the month-summary fetch is the number of habits completed that
day divided by the habit count, times 100, rounded to one decimal place;
when there are no habits every day reports 0 and the completion map is
empty. -/
theorem C3_daily_percentage (db : DB) (today first : Int) (len : Nat)
    (hwf : db.wf) :
    (get_habits db today first len).daily_stats =
      (List.range len).map (fun k : Nat =>
        ((k : Int) + 1,
          round1 (if db.habits.isEmpty then 0
            else (specDayCount db (first + (k : Int)) : ℚ) /
              (db.habits.length : ℚ) * 100))) ∧
    (db.habits = [] →
      (get_habits db today first len).daily_stats =
        (List.range len).map (fun k : Nat => ((k : Int) + 1, (0 : ℚ))) ∧
      (get_habits db today first len).completions = []) := by
  constructor
  · simp only [get_habits, dailyStats]
    apply List.map_congr_left
    intro k hk
    have hklen := List.mem_range.mp hk
    refine Prod.ext ?_ ?_
    · show dayOfMonth first (first + (k : Int)) = (k : Int) + 1
      unfold dayOfMonth
      ring
    · show round1 _ = round1 _
      congr 1
      by_cases hemp : db.habits.isEmpty
      · rw [if_pos hemp, if_pos hemp]
      · rw [if_neg hemp, if_neg hemp]
        rw [dict_count_eq_spec db hwf first (first + (len : Int) - 1)
          (first + (k : Int)) (by omega) (by omega)]
  · intro hnil
    constructor
    · simp only [get_habits, dailyStats]
      apply List.map_congr_left
      intro k hk
      refine Prod.ext ?_ ?_
      · show dayOfMonth first (first + (k : Int)) = (k : Int) + 1
        unfold dayOfMonth
        ring
      · show round1 (if db.habits.isEmpty then 0 else _) = 0
        rw [if_pos (by simp [hnil])]
        exact round1_zero
    · simp [get_habits, completionsDict, hnil]

/-- Claim C10: the daily_stats series has exactly one entry per calendar day
of the target month, with day fields strictly ascending from 1 to the
month's last day, for every store and every request. -/
theorem C10_daily_stats_days (db : DB) (today first : Int) (len : Nat) :
    (get_habits db today first len).daily_stats.length = len ∧
    (get_habits db today first len).daily_stats.map Prod.fst =
      (List.range len).map (fun k : Nat => (k : Int) + 1) := by
  constructor
  · simp only [get_habits]
    unfold dailyStats
    rw [List.length_map, List.length_range]
  · simp only [get_habits, dailyStats, List.map_map]
    apply List.map_congr_left
    intro k _
    simp only [Function.comp_apply, dayOfMonth]
    ring

/-- Claim C6: toggle-completion inserts a completion row for
`(habit_id, date)` when none exists and deletes it when one exists, so for
an existing habit, toggling the same pair twice in succession succeeds both
times, leaves the habit table unchanged, and returns the completion store to
its original state (as a multiset of rows). -/
theorem C6_toggle_twice (db : DB) (hid : Nat) (d : Int) (hwf : db.wf)
    (hhab : ∃ h ∈ db.habits, h.id = hid) :
    (toggle_completion db hid d).2 = 200 ∧
    ((toggle_completion db hid d).1).habits = db.habits ∧
    ((∀ c ∈ db.completions, ¬(c.habit_id = hid ∧ c.date = d)) →
      ∃ c ∈ ((toggle_completion db hid d).1).completions,
        c.habit_id = hid ∧ c.date = d) ∧
    ((∃ c ∈ db.completions, c.habit_id = hid ∧ c.date = d) →
      ∀ c ∈ ((toggle_completion db hid d).1).completions,
        ¬(c.habit_id = hid ∧ c.date = d)) ∧
    (toggle_completion (toggle_completion db hid d).1 hid d).2 = 200 ∧
    ((toggle_completion (toggle_completion db hid d).1 hid d).1).habits =
      db.habits ∧
    ((toggle_completion (toggle_completion db hid d).1 hid d).1).completions.Perm
      db.completions := by
  obtain ⟨h0, hh0, hid0⟩ := hhab
  have hfs : (db.habits.find? (fun h => h.id == hid)).isSome :=
    List.find?_isSome.mpr ⟨h0, hh0, by simp [hid0]⟩
  obtain ⟨hf, hfeq⟩ := Option.isSome_iff_exists.mp hfs
  rcases hcf : db.completions.find? (fun c => c.habit_id == hid && c.date == d)
    with _ | c0
  · -- no row for (hid, d): first toggle inserts, second deletes it again
    have hnomem := List.find?_eq_none.mp hcf
    have ht1 : toggle_completion db hid d =
        ({ db with completions :=
            db.completions ++ [⟨hid, d, true⟩] }, 200) := by
      unfold toggle_completion
      rw [hfeq, hcf]
    have hfind2 : (db.completions ++ [(⟨hid, d, true⟩ : Completion)]).find?
        (fun c => c.habit_id == hid && c.date == d) =
        some ⟨hid, d, true⟩ := by
      rw [List.find?_append, hcf]
      simp
    have herase2 : (db.completions ++ [(⟨hid, d, true⟩ : Completion)]).eraseP
        (fun c => c.habit_id == hid && c.date == d) = db.completions := by
      rw [List.eraseP_append_right _ hnomem]
      simp
    have ht2 : toggle_completion (toggle_completion db hid d).1 hid d =
        ({ db with completions := db.completions }, 200) := by
      rw [ht1]
      unfold toggle_completion
      simp only [hfeq, hfind2, herase2]
    refine ⟨by rw [ht1], by rw [ht1], ?_, ?_, by rw [ht2], by rw [ht2], ?_⟩
    · intro _
      rw [ht1]
      exact ⟨⟨hid, d, true⟩, List.mem_append_right _ (List.mem_singleton_self _),
        rfl, rfl⟩
    · rintro ⟨c, hc, hcp⟩
      exact absurd (by simp [hcp.1, hcp.2]) (hnomem c hc)
    · rw [ht2]
  · -- a row exists: first toggle deletes it, second inserts it back
    have hqc0 := List.find?_some hcf
    have hc0mem := List.mem_of_find?_eq_some hcf
    obtain ⟨a, l1, l2, hnl1, hpa, hleq, herase⟩ :=
      @List.exists_of_eraseP Completion
        (fun c => c.habit_id == hid && c.date == d) db.completions c0
        hc0mem hqc0
    have hamem : a ∈ db.completions := by
      rw [hleq]
      exact List.mem_append_right _ (List.mem_cons_self _ _)
    have ha : a = ⟨hid, d, true⟩ := by
      have h1 : a.habit_id = hid ∧ a.date = d := by simpa using hpa
      have h2 : a.completed = true := hwf.2.2.1 a hamem
      cases a
      simp only at h1 h2
      simp [h1.1, h1.2, h2]
    have hnol2 : ∀ x ∈ l2,
        ¬((fun c : Completion => c.habit_id == hid && c.date == d) x = true) := by
      intro x hx hqx
      have hnd := hwf.2.1
      rw [hleq, List.map_append, List.map_cons] at hnd
      have hnd2 := (List.nodup_append.mp hnd).2.1
      have hnotin := (List.nodup_cons.mp hnd2).1
      apply hnotin
      refine List.mem_map.mpr ⟨x, hx, ?_⟩
      have hx1 : x.habit_id = hid ∧ x.date = d := by simpa using hqx
      have ha1 : a.habit_id = hid ∧ a.date = d := by simpa using hpa
      rw [hx1.1, hx1.2, ha1.1, ha1.2]
    have hfind2 : (l1 ++ l2).find?
        (fun c => c.habit_id == hid && c.date == d) = none := by
      rw [List.find?_eq_none]
      intro x hx
      rcases List.mem_append.mp hx with h | h
      · exact hnl1 x h
      · exact hnol2 x h
    have ht1 : toggle_completion db hid d =
        ({ db with completions := l1 ++ l2 }, 200) := by
      unfold toggle_completion
      rw [hfeq, hcf, herase]
    have ht2 : toggle_completion (toggle_completion db hid d).1 hid d =
        ({ db with completions := (l1 ++ l2) ++ [⟨hid, d, true⟩] }, 200) := by
      rw [ht1]
      unfold toggle_completion
      simp only [hfeq, hfind2]
    refine ⟨by rw [ht1], by rw [ht1], ?_, ?_, by rw [ht2], by rw [ht2], ?_⟩
    · intro hall
      exfalso
      have ha1 : a.habit_id = hid ∧ a.date = d := by simpa using hpa
      exact hall a hamem ha1
    · intro _
      rw [ht1]
      intro c hc hcp
      rcases List.mem_append.mp hc with h | h
      · exact hnl1 c h (by simp [hcp.1, hcp.2])
      · exact hnol2 c h (by simp [hcp.1, hcp.2])
    · rw [ht2]
      show ((l1 ++ l2) ++ [(⟨hid, d, true⟩ : Completion)]).Perm db.completions
      rw [← ha, hleq, List.append_assoc]
      exact List.Perm.append_left l1 (List.perm_append_singleton a l2)

/-- Claim C7: create-habit answers 400 exactly when the name is missing,
empty after trimming, or longer than 100 characters, leaving the store
unchanged; otherwise it appends the habit with the trimmed name, an emoji of
at most 2 characters (the star symbol when the supplied emoji trims to
empty), the palette color indexed by the current habit count modulo the
palette size, and answers 201 with the new id. -/
theorem C7_create_habit (db : DB) (nameArg emojiArg : Option PyStr) :
    (nameArg = none → create_habit db nameArg emojiArg = (db, 400, none)) ∧
    (∀ s : PyStr, nameArg = some s →
      (pyStrip s = [] ∨ (pyStrip s).length > 100) →
      create_habit db nameArg emojiArg = (db, 400, none)) ∧
    (∀ s : PyStr, nameArg = some s →
      pyStrip s ≠ [] → (pyStrip s).length ≤ 100 →
      ∃ hb : Habit,
        create_habit db nameArg emojiArg =
          ({ db with habits := db.habits ++ [hb],
                     nextHabitId := db.nextHabitId + 1 }, 201, some hb.id) ∧
        hb.id = db.nextHabitId ∧
        hb.name = pyStrip s ∧
        hb.emoji.length ≤ 2 ∧
        (pyStrip (emojiArg.getD star) = [] → hb.emoji = star) ∧
        hb.color = colors.get
          ⟨db.habits.length % colors.length, Nat.mod_lt _ (by decide)⟩) := by
  refine ⟨?_, ?_, ?_⟩
  · intro hn
    rw [hn]
    rfl
  · intro s hn hbad
    rw [hn]
    simp only [create_habit]
    rw [if_pos hbad]
  · intro s hn hne hlen
    rw [hn]
    simp only [create_habit]
    rw [if_neg (by push_neg; exact ⟨hne, by omega⟩)]
    refine ⟨_, rfl, rfl, rfl, ?_, ?_, rfl⟩
    · by_cases he : (pyStrip (emojiArg.getD star)).take 2 = []
      · simp only [if_pos he]
        decide
      · simp only [if_neg he]
        rw [List.length_take]
        omega
    · intro hemp
      have htake : (pyStrip (emojiArg.getD star)).take 2 = [] := by
        rw [hemp]
        rfl
      simp only [if_pos htake]

/-- Verified behavior of delete-habit: on an unknown id it answers 500 (see
`delete_habit` — the NotFound raised by `get_or_404` is swallowed by the
view's blanket exception handler) with the store unchanged; on an existing
habit it answers 204, removes the habit row, and cascades to every
completion row of that habit, so a subsequent month-summary fetch has no
habit entry (hence no streaks) and no completion-map key for the deleted
id. -/
theorem delete_habit_behavior (db : DB) (hid : Nat) (hwf : db.wf) :
    ((∀ h ∈ db.habits, h.id ≠ hid) → delete_habit db hid = (db, 500)) ∧
    ((∃ h ∈ db.habits, h.id = hid) →
      (delete_habit db hid).2 = 204 ∧
      (∀ h ∈ (delete_habit db hid).1.habits, h.id ≠ hid) ∧
      (∀ c ∈ (delete_habit db hid).1.completions, c.habit_id ≠ hid) ∧
      (∀ (today first : Int) (len : Nat),
        (∀ e ∈ (get_habits (delete_habit db hid).1 today first len).habits,
          e.id ≠ hid) ∧
        (∀ p ∈ (get_habits (delete_habit db hid).1 today first len).completions,
          p.1 ≠ hid))) := by
  constructor
  · intro hnone
    have hf : db.habits.find? (fun h => h.id == hid) = none := by
      rw [List.find?_eq_none]
      intro x hx
      simp [hnone x hx]
    unfold delete_habit
    rw [hf]
  · rintro ⟨h0, hh0, hid0⟩
    have hfs : (db.habits.find? (fun h => h.id == hid)).isSome :=
      List.find?_isSome.mpr ⟨h0, hh0, by simp [hid0]⟩
    obtain ⟨hf, hfeq⟩ := Option.isSome_iff_exists.mp hfs
    have hd : delete_habit db hid =
        ({ db with habits := db.habits.eraseP (fun h => h.id == hid),
                   completions := db.completions.filter
                     (fun c => c.habit_id != hid) }, 204) := by
      unfold delete_habit
      rw [hfeq]
    have hposth : ∀ h ∈ (delete_habit db hid).1.habits, h.id ≠ hid := by
      rw [hd]
      obtain ⟨a, l1, l2, hnl1, hpa, hleq, herase⟩ :=
        @List.exists_of_eraseP Habit (fun h => h.id == hid) db.habits h0
          hh0 (by simp [hid0])
      show ∀ h ∈ db.habits.eraseP (fun h => h.id == hid), h.id ≠ hid
      rw [herase]
      have hnd := hwf.1
      rw [hleq, List.map_append, List.map_cons] at hnd
      obtain ⟨hnd1, hnd2, hdisj⟩ := List.nodup_append.mp hnd
      have hanotin2 : a.id ∉ l2.map Habit.id := (List.nodup_cons.mp hnd2).1
      have haid : a.id = hid := by simpa using hpa
      intro x hx hxid
      rcases List.mem_append.mp hx with h | h
      · exact hnl1 x h (by simp [hxid])
      · exact hanotin2 (by
          rw [haid, ← hxid]
          exact List.mem_map.mpr ⟨x, h, rfl⟩)
    have hpostc : ∀ c ∈ (delete_habit db hid).1.completions,
        c.habit_id ≠ hid := by
      rw [hd]
      intro c hc
      have := (List.mem_filter.mp hc).2
      simpa using this
    refine ⟨by rw [hd], hposth, hpostc, ?_⟩
    intro today first len
    constructor
    · intro e he
      simp only [get_habits, List.mem_map] at he
      obtain ⟨h, hh, rfl⟩ := he
      exact hposth h hh
    · intro p hp
      simp only [get_habits, completionsDict] at hp
      obtain ⟨h, hh, hpm⟩ := List.mem_flatMap.mp (List.mem_dedup.mp hp)
      obtain ⟨c, _, rfl⟩ := List.mem_map.mp hpm
      exact hposth h hh


theorem C1_witness :
    wEntryA3 ∈ (get_habits wdbA 105 101 30).habits ∧
    ((∀ x : Int,
        min 105 (101 + (30 : Int) - 1) - (wEntryA3.current_streak : Int) < x →
        x ≤ min 105 (101 + (30 : Int) - 1) →
        101 ≤ x ∧ x ∈ habitDates wdbA wEntryA3.id) ∧
    ¬(101 ≤ min 105 (101 + (30 : Int) - 1) - (wEntryA3.current_streak : Int) ∧
        min 105 (101 + (30 : Int) - 1) - (wEntryA3.current_streak : Int) ∈
          habitDates wdbA wEntryA3.id) ∧
    (min 105 (101 + (30 : Int) - 1) ∉ habitDates wdbA wEntryA3.id →
      wEntryA3.current_streak = 0)) :=
  ⟨by decide, C1_current_streak_backward_walk wdbA 105 101 30 wEntryA3 (by decide)⟩

theorem C2_witness :
    wdbA.wf ∧
    (get_habits wdbA 130 101 30).habits.map (fun e => e.best_streak) = [3] ∧
    ((∃ d : Int, ∀ x : Int, d ≤ x →
        x < d + ((⟨1, ['G', 'y', 'm'], star, "bg-blue-100", 0, 3⟩ :
          ApiHabit).best_streak : Int) →
        101 ≤ x ∧ x ≤ 101 + (30 : Int) - 1 ∧ x ∈ habitDates wdbA 1) ∧
    (∀ (d : Int) (k : Nat),
        (∀ x : Int, d ≤ x → x < d + (k : Int) →
          101 ≤ x ∧ x ≤ 101 + (30 : Int) - 1 ∧ x ∈ habitDates wdbA 1) →
        k ≤ (⟨1, ['G', 'y', 'm'], star, "bg-blue-100", 0, 3⟩ :
          ApiHabit).best_streak) ∧
    ((⟨1, ['G', 'y', 'm'], star, "bg-blue-100", 0, 3⟩ :
        ApiHabit).best_streak = 0 ↔
      ∀ x : Int,
        ¬(101 ≤ x ∧ x ≤ 101 + (30 : Int) - 1 ∧ x ∈ habitDates wdbA 1))) :=
  ⟨by decide, by decide,
    C2_best_streak_longest_run wdbA 130 101 30 (by decide)
      ⟨1, ['G', 'y', 'm'], star, "bg-blue-100", 0, 3⟩ (by decide)⟩

theorem C9_witness :
    wdbA.wf ∧ wEntryA3 ∈ (get_habits wdbA 105 101 30).habits ∧
    wEntryA3.current_streak ≤ wEntryA3.best_streak :=
  ⟨by decide, by decide,
    C9_current_le_best wdbA 105 101 30 (by decide) wEntryA3 (by decide)⟩

theorem C4_witness :
    wEntryB1 ∈ (get_habits wdbB 140 100 30).habits ∧
    wEntryB0 ∈ (get_habits wdbB 50 100 30).habits ∧
    ((100 + (30 : Int) - 1 < 140 →
      wEntryB1.current_streak =
        currentStreak (habitDates wdbB wEntryB1.id) 100 (100 + (30 : Int) - 1)
          (100 + (30 : Int) - 1)) ∧
    (140 < (100 : Int) → wEntryB1.current_streak = 0)) ∧
    ((100 + (30 : Int) - 1 < 50 →
      wEntryB0.current_streak =
        currentStreak (habitDates wdbB wEntryB0.id) 100 (100 + (30 : Int) - 1)
          (100 + (30 : Int) - 1)) ∧
    (50 < (100 : Int) → wEntryB0.current_streak = 0)) :=
  ⟨by decide, by decide,
    C4_today_outside_month wdbB 140 100 30 wEntryB1 (by decide),
    C4_today_outside_month wdbB 50 100 30 wEntryB0 (by decide)⟩

/-- Claim C4 as stated is false: with today (ordinal 50) before the target
month (ordinals 100 to 129) and a completion on the month's last day, the
fetch reports current streak 0, while the backward walk started from the
month's last day counts 1. -/
theorem C4_counterexample :
    (50 : Int) < 100 ∧
    (get_habits wdbB 50 100 30).habits.map (fun e => e.current_streak) = [0] ∧
    currentStreak (habitDates wdbB 1) 100 (100 + (30 : Int) - 1)
        (100 + (30 : Int) - 1) = 1 :=
  ⟨by decide, by decide, by decide⟩

theorem C5_witness :
    wdbA.wf ∧ wdbC.wf ∧ wdbA.habits = wdbC.habits ∧
    (∀ h ∈ wdbA.habits, ∀ k ∈ List.range 30,
      ((101 + (k : Int)) ∈ habitDates wdbA h.id ↔
        (101 + (k : Int)) ∈ habitDates wdbC h.id)) ∧
    (get_habits wdbA 105 101 30).habits.map
        (fun e => (e.id, e.current_streak, e.best_streak)) =
      (get_habits wdbC 105 101 30).habits.map
        (fun e => (e.id, e.current_streak, e.best_streak)) :=
  ⟨by decide, by decide, by decide, by decide,
    C5_streaks_month_local wdbA wdbC 105 101 30 (by decide) (by decide)
      (by decide) (by decide)⟩

theorem C3_witness :
    wdbA.wf ∧
    ((get_habits wdbA 130 101 30).daily_stats =
      (List.range 30).map (fun k : Nat =>
        ((k : Int) + 1,
          round1 (if wdbA.habits.isEmpty then 0
            else (specDayCount wdbA (101 + (k : Int)) : ℚ) /
              (wdbA.habits.length : ℚ) * 100))) ∧
    (wdbA.habits = [] →
      (get_habits wdbA 130 101 30).daily_stats =
        (List.range 30).map (fun k : Nat => ((k : Int) + 1, (0 : ℚ))) ∧
      (get_habits wdbA 130 101 30).completions = [])) :=
  ⟨by decide, C3_daily_percentage wdbA 130 101 30 (by decide)⟩

theorem C6_witness :
    wdbA.wf ∧ (∃ h ∈ wdbA.habits, h.id = 1) ∧
    (toggle_completion wdbA 1 120).2 = 200 ∧
    ((toggle_completion (toggle_completion wdbA 1 120).1 1 120).1).completions.Perm
      wdbA.completions :=
  ⟨by decide, by decide,
    (C6_toggle_twice wdbA 1 120 (by decide) (by decide)).1,
    (C6_toggle_twice wdbA 1 120 (by decide) (by decide)).2.2.2.2.2.2⟩

theorem C7_witness :
    pyStrip [' ', 'R', 'u', 'n'] ≠ [] ∧
    (pyStrip [' ', 'R', 'u', 'n']).length ≤ 100 ∧
    ∃ hb : Habit,
      create_habit wdbA (some [' ', 'R', 'u', 'n']) none =
        ({ wdbA with habits := wdbA.habits ++ [hb],
                     nextHabitId := wdbA.nextHabitId + 1 }, 201, some hb.id) ∧
      hb.id = wdbA.nextHabitId ∧
      hb.name = pyStrip [' ', 'R', 'u', 'n'] ∧
      hb.emoji.length ≤ 2 ∧
      (pyStrip ((none : Option PyStr).getD star) = [] → hb.emoji = star) ∧
      hb.color = colors.get
        ⟨wdbA.habits.length % colors.length, Nat.mod_lt _ (by decide)⟩ :=
  ⟨by decide, by decide,
    (C7_create_habit wdbA (some [' ', 'R', 'u', 'n']) none).2.2
      [' ', 'R', 'u', 'n'] rfl (by decide) (by decide)⟩

/-- Claim C8's not-found branch fails on the code: deleting habit id 7 from
a store whose only habit id is 1 leaves the store unchanged but answers 500
(`get_or_404`'s NotFound is caught by the view's own blanket exception
handler), not the 404 the claim states; the existing-habit half of the claim
(204, habit removed, completions cascaded) does hold, shown here on id 1. -/
theorem C8_unknown_id_answers_500 :
    (∀ h ∈ wdbA.habits, h.id ≠ 7) ∧
    delete_habit wdbA 7 = (wdbA, 500) ∧
    (delete_habit wdbA 7).2 ≠ 404 ∧
    (delete_habit wdbA 1).2 = 204 ∧
    (∀ h ∈ (delete_habit wdbA 1).1.habits, h.id ≠ 1) ∧
    (∀ c ∈ (delete_habit wdbA 1).1.completions, c.habit_id ≠ 1) := by
  refine ⟨by decide, by decide, by decide, by decide, by decide, by decide⟩

end HabitTracker
